import Mathlib

/-!
Verification of the `go-maddr-filter` rule table (`filter.go`).

The table stores an ordered list of `(net.IPNet, reject)` entries together
with a `RejectByDefault` flag.  The `net.IPNet` collaborator is external to
the repository, so it is abstracted here: a prefix type `Pfx` comes with its
canonical string form `key : Pfx → String` (the Go code compares prefixes by
`IPNet.String()`) and a containment test `contains : Pfx → Addr → Bool`
(`IPNet.Contains`).  The multiaddr decomposition pipeline used by
`AddrBlocked` (`ma.Split`, `manet.ToNetAddr`, `net.ParseIP`) is likewise
external; since the code returns `RejectByDefault` on failure of any of the
three stages, it is modelled as a single `parse : MA → Option Addr`.

All table operations are translated directly from the source:
`NewFilters`, `find`, `AddDialFilter`, `AddDenyFilter`, `AddAllowFilter`,
`Remove`, `AddrBlocked`, `Filters` (list of DENY masks, `FiltersM` here),
`RejectFilters`, `AllowFilters`.
-/

/-- One allow/deny rule: a network prefix together with its action.
`reject = true` is the DENY action, `reject = false` is ALLOW.
Mirrors `filterEntry` in the source. -/
structure FilterEntry (Pfx : Type) where
  f : Pfx
  reject : Bool
deriving DecidableEq

/-- The rule table: the default policy flag and the ordered rule list.
Mirrors the `Filters` struct (the `sync.RWMutex` field has no counterpart
in this sequential embedding). -/
structure Filters (Pfx : Type) where
  RejectByDefault : Bool
  filters : List (FilterEntry Pfx)
deriving DecidableEq

/-- Mirrors `NewFilters`: empty rule list, `RejectByDefault = false`. -/
def NewFilters (Pfx : Type) : Filters Pfx :=
  { RejectByDefault := false, filters := [] }

/-- Loop body of `find`: walk the list with a running index, returning the
index of the first entry whose canonical string equals `ffs`, else `-1`. -/
def findAux {Pfx : Type} (key : Pfx → String) (ffs : String) :
    Nat → List (FilterEntry Pfx) → Int
  | _, [] => -1
  | idx, ft :: rest =>
    if key ft.f == ffs then (idx : Int) else findAux key ffs (idx + 1) rest

/-- Mirrors `(fs *Filters) find(ff *net.IPNet) int`: the index of the first
entry whose prefix has the same canonical string as `ff`, or `-1`. -/
def Filters.find {Pfx : Type} (key : Pfx → String) (fs : Filters Pfx) (ff : Pfx) : Int :=
  findAux key (key ff) 0 fs.filters

/-- Mirrors the in-place assignment `fs.filters[idx].reject = b`: the entry
at position `idx` keeps its prefix and gets action `b`; out-of-range
indices leave the list unchanged (the source only uses in-range indices
returned by `find`). -/
def setRejectAt {Pfx : Type} : List (FilterEntry Pfx) → Nat → Bool → List (FilterEntry Pfx)
  | [], _, _ => []
  | e :: rest, 0, b => { e with reject := b } :: rest
  | e :: rest, Nat.succ n, b => e :: setRejectAt rest n b

/-- Mirrors `AddDialFilter`: if `find` locates an entry with the same
canonical prefix string, overwrite its action to reject; otherwise append a
new reject entry at the end. -/
def AddDialFilter {Pfx : Type} (key : Pfx → String) (fs : Filters Pfx) (f : Pfx) :
    Filters Pfx :=
  let idx := fs.find key f
  if idx != -1 then
    { fs with filters := setRejectAt fs.filters idx.toNat true }
  else
    { fs with filters := fs.filters ++ [{ f := f, reject := true }] }

/-- Mirrors `AddDenyFilter`, an alias of `AddDialFilter`. -/
def AddDenyFilter {Pfx : Type} (key : Pfx → String) (fs : Filters Pfx) (f : Pfx) :
    Filters Pfx :=
  AddDialFilter key fs f

/-- Mirrors `AddAllowFilter`: like `AddDialFilter` with action allow. -/
def AddAllowFilter {Pfx : Type} (key : Pfx → String) (fs : Filters Pfx) (f : Pfx) :
    Filters Pfx :=
  let idx := fs.find key f
  if idx != -1 then
    { fs with filters := setRejectAt fs.filters idx.toNat false }
  else
    { fs with filters := fs.filters ++ [{ f := f, reject := false }] }

/-- Mirrors `Remove`: if `find` locates an entry with the same canonical
prefix string, splice it out (`append(fs.filters[:idx], fs.filters[idx+1:]...)`
is `List.eraseIdx`); otherwise leave the table unchanged. -/
def Remove {Pfx : Type} (key : Pfx → String) (fs : Filters Pfx) (ff : Pfx) :
    Filters Pfx :=
  let idx := fs.find key ff
  if idx != -1 then
    { fs with filters := fs.filters.eraseIdx idx.toNat }
  else
    fs

/-- Mirrors `AddrBlocked`: if the multiaddr pipeline fails to produce an IP
(`ma.Split` empty, `manet.ToNetAddr` error, or `net.ParseIP` nil — all three
collapsed into `parse` returning `none`), return `RejectByDefault`;
otherwise fold over the rule list in order, the last entry whose prefix
contains the address deciding the result, starting from `RejectByDefault`. -/
def AddrBlocked {Pfx Addr MA : Type} (parse : MA → Option Addr)
    (contains : Pfx → Addr → Bool) (fs : Filters Pfx) (a : MA) : Bool :=
  match parse a with
  | none => fs.RejectByDefault
  | some netip =>
    fs.filters.foldl
      (fun reject ft => if contains ft.f netip then ft.reject else reject)
      fs.RejectByDefault

/-- Mirrors the `Filters()` method: collect, in order, the prefixes of the
entries whose action is reject (the DENY masks). -/
def FiltersM {Pfx : Type} (fs : Filters Pfx) : List Pfx :=
  fs.filters.foldl (fun out ff => if ff.reject then out ++ [ff.f] else out) []

/-- Mirrors `RejectFilters`, an alias of the `Filters()` method. -/
def RejectFilters {Pfx : Type} (fs : Filters Pfx) : List Pfx :=
  FiltersM fs

/-- Mirrors `AllowFilters`: collect, in order, the prefixes of the entries
whose action is allow. -/
def AllowFilters {Pfx : Type} (fs : Filters Pfx) : List Pfx :=
  fs.filters.foldl (fun out ff => if !ff.reject then out ++ [ff.f] else out) []

/-- Written from the spec's words for the Evaluate algorithm, to be compared
with `AddrBlocked`: initialize the decision to the default action, let the
last rule in insertion order whose prefix contains the address overwrite it,
and report whether the final decision is DENY (here the action is the
boolean `reject`, with `true` standing for DENY, so `decision == DENY` is
the decision itself). -/
def lastMatchSpec {Pfx Addr : Type} (contains : Pfx → Addr → Bool) (d : Bool)
    (rs : List (FilterEntry Pfx)) (ip : Addr) : Bool :=
  match (rs.filter fun e => contains e.f ip).getLast? with
  | none => d
  | some e => e.reject

/-- Option-valued form of `find`: index of the first entry whose canonical
string is `s`, used to reason about the `-1` sentinel of `findAux`. -/
def findIdxO {Pfx : Type} (key : Pfx → String) (s : String) :
    List (FilterEntry Pfx) → Option Nat
  | [] => none
  | e :: rs => if key e.f == s then some 0 else (findIdxO key s rs).map (· + 1)

/-- A concrete prefix universe for witnesses: a pair of an 8-bit network
base and a mask length, with a decimal canonical form. -/
def keyN (p : Nat × Nat) : String :=
  toString p.1 ++ "/" ++ toString p.2

/-- Containment for the concrete witness universe: the address agrees with
the base on the top `p.2` bits of an 8-bit space. -/
def containsN (p : Nat × Nat) (a : Nat) : Bool :=
  a / 2 ^ (8 - p.2) == p.1 / 2 ^ (8 - p.2)

/-! Bridge lemmas between the integer-returning `find` of the source and the
option-valued first-match index. -/

theorem findAux_eq_findIdxO {Pfx : Type} (key : Pfx → String) (s : String)
    (rs : List (FilterEntry Pfx)) :
    ∀ n : Nat, findAux key s n rs =
      match findIdxO key s rs with
      | none => -1
      | some i => ((n + i : Nat) : Int) := by
  induction rs with
  | nil => intro n; rfl
  | cons e rs ih =>
    intro n
    by_cases h : (key e.f == s) = true
    · simp [findAux, findIdxO, h]
    · have h' : (key e.f == s) = false := by simpa using h
      have hstep : findAux key s n (e :: rs) = findAux key s (n + 1) rs := by
        simp [findAux, h']
      rw [hstep, ih (n + 1)]
      cases hf : findIdxO key s rs with
      | none => simp [findIdxO, h', hf]
      | some i =>
        simp only [findIdxO, h', Bool.false_eq_true, if_false, hf, Option.map_some']
        congr 1
        omega

theorem findIdxO_eq_none_iff {Pfx : Type} (key : Pfx → String) (s : String)
    (rs : List (FilterEntry Pfx)) :
    findIdxO key s rs = none ↔ ∀ e ∈ rs, (key e.f == s) = false := by
  induction rs with
  | nil => simp [findIdxO]
  | cons e rs ih =>
    by_cases h : (key e.f == s) = true
    · rw [findIdxO, if_pos h]
      constructor
      · intro hc; cases hc
      · intro hall
        have he := hall e (List.mem_cons_self e rs)
        rw [h] at he; cases he
    · have h' : (key e.f == s) = false := by simpa using h
      rw [findIdxO, if_neg h]
      rw [Option.map_eq_none', ih, List.forall_mem_cons]
      constructor
      · intro hall; exact ⟨h', hall⟩
      · intro hall; exact hall.2

theorem findIdxO_some_spec {Pfx : Type} (key : Pfx → String) (s : String)
    (rs : List (FilterEntry Pfx)) :
    ∀ i : Nat, findIdxO key s rs = some i →
      ∃ e, rs.get? i = some e ∧ (key e.f == s) = true ∧
        ∀ k, k < i → ∀ e', rs.get? k = some e' → (key e'.f == s) = false := by
  induction rs with
  | nil => intro i h; cases h
  | cons e rs ih =>
    intro i h
    by_cases he : (key e.f == s) = true
    · rw [findIdxO, if_pos he] at h
      cases h
      exact ⟨e, rfl, he, fun k hk => absurd hk (Nat.not_lt_zero k)⟩
    · have he' : (key e.f == s) = false := by simpa using he
      rw [findIdxO, if_neg he] at h
      cases hf : findIdxO key s rs with
      | none => rw [hf] at h; cases h
      | some j =>
        rw [hf] at h
        simp only [Option.map_some', Option.some.injEq] at h
        subst h
        obtain ⟨e', hget, hkey, hfirst⟩ := ih j hf
        refine ⟨e', by simpa using hget, hkey, ?_⟩
        intro k hk e'' hget'
        cases k with
        | zero =>
          simp only [List.get?_cons_zero, Option.some.injEq] at hget'
          subst hget'
          exact he'
        | succ k =>
          exact hfirst k (by omega) e'' (by simpa using hget')

theorem findIdxO_of_first {Pfx : Type} (key : Pfx → String) (s : String)
    (rs : List (FilterEntry Pfx)) :
    ∀ i : Nat, ∀ e, rs.get? i = some e → (key e.f == s) = true →
      (∀ k, k < i → ∀ e', rs.get? k = some e' → (key e'.f == s) = false) →
      findIdxO key s rs = some i := by
  induction rs with
  | nil => intro i e h; cases h
  | cons a rs ih =>
    intro i e hget hkey hfirst
    cases i with
    | zero =>
      simp only [List.get?_cons_zero, Option.some.injEq] at hget
      subst hget
      rw [findIdxO, if_pos hkey]
    | succ i =>
      have ha : (key a.f == s) = false := hfirst 0 (Nat.succ_pos i) a rfl
      have hrec := ih i e (by simpa using hget) hkey
        (fun k hk e' hget' => hfirst (k + 1) (by omega) e' (by simpa using hget'))
      rw [findIdxO, if_neg (by simp [ha]), hrec]
      rfl

/-! The three mutators, rephrased through the option-valued index. -/

theorem Remove_eq_match {Pfx : Type} (key : Pfx → String) (fs : Filters Pfx) (ff : Pfx) :
    Remove key fs ff =
      match findIdxO key (key ff) fs.filters with
      | none => fs
      | some i => { fs with filters := fs.filters.eraseIdx i } := by
  unfold Remove Filters.find
  rw [findAux_eq_findIdxO key (key ff) fs.filters 0]
  cases hf : findIdxO key (key ff) fs.filters with
  | none => rfl
  | some i => simp

theorem AddDialFilter_eq_match {Pfx : Type} (key : Pfx → String) (fs : Filters Pfx) (f : Pfx) :
    AddDialFilter key fs f =
      match findIdxO key (key f) fs.filters with
      | none => { fs with filters := fs.filters ++ [{ f := f, reject := true }] }
      | some i => { fs with filters := setRejectAt fs.filters i true } := by
  unfold AddDialFilter Filters.find
  rw [findAux_eq_findIdxO key (key f) fs.filters 0]
  cases hf : findIdxO key (key f) fs.filters with
  | none => rfl
  | some i => simp

theorem AddAllowFilter_eq_match {Pfx : Type} (key : Pfx → String) (fs : Filters Pfx) (f : Pfx) :
    AddAllowFilter key fs f =
      match findIdxO key (key f) fs.filters with
      | none => { fs with filters := fs.filters ++ [{ f := f, reject := false }] }
      | some i => { fs with filters := setRejectAt fs.filters i false } := by
  unfold AddAllowFilter Filters.find
  rw [findAux_eq_findIdxO key (key f) fs.filters 0]
  cases hf : findIdxO key (key f) fs.filters with
  | none => rfl
  | some i => simp

/-! List surgery lemmas for `setRejectAt` and `List.eraseIdx`. -/

theorem setRejectAt_eq_set {Pfx : Type} :
    ∀ (rs : List (FilterEntry Pfx)) (i : Nat) (e : FilterEntry Pfx) (b : Bool),
      rs.get? i = some e → setRejectAt rs i b = rs.set i { e with reject := b } := by
  intro rs
  induction rs with
  | nil => intro i e b h; cases h
  | cons a rs ih =>
    intro i e b h
    cases i with
    | zero =>
      simp only [List.get?_cons_zero, Option.some.injEq] at h
      subst h
      rfl
    | succ i =>
      simp only [List.get?_cons_succ] at h
      simp [setRejectAt, List.set, ih i e b h]

theorem eraseIdx_eq_filter_of_unique {Pfx : Type} (p : FilterEntry Pfx → Bool) :
    ∀ (rs : List (FilterEntry Pfx)) (i : Nat) (e : FilterEntry Pfx),
      rs.get? i = some e → p e = true →
      (∀ k, k < i → ∀ e', rs.get? k = some e' → p e' = false) →
      rs.countP p ≤ 1 →
      rs.eraseIdx i = rs.filter (fun e' => !(p e')) := by
  intro rs
  induction rs with
  | nil => intro i e h; cases h
  | cons a rs ih =>
    intro i e hget hp hfirst hcount
    cases i with
    | zero =>
      simp only [List.get?_cons_zero, Option.some.injEq] at hget
      subst hget
      have hc : rs.countP p = 0 := by
        rw [List.countP_cons_of_pos p rs hp] at hcount
        omega
      have hall : ∀ e' ∈ rs, p e' = false := by
        intro e' he'
        have := List.countP_eq_zero.mp hc e' he'
        simpa using this
      rw [List.eraseIdx_cons_zero]
      rw [List.filter_cons_of_neg (by simp [hp])]
      rw [List.filter_eq_self.mpr (by intro e' he'; simp [hall e' he'])]
    | succ i =>
      have ha : p a = false := hfirst 0 (Nat.succ_pos i) a rfl
      have hcount' : rs.countP p ≤ 1 := by
        rw [List.countP_cons_of_neg p rs (by simp [ha])] at hcount
        exact hcount
      rw [List.eraseIdx_cons_succ]
      rw [List.filter_cons_of_pos (by simp [ha])]
      rw [ih i e (by simpa using hget) hp
        (fun k hk e' hget' => hfirst (k + 1) (by omega) e' (by simpa using hget'))
        hcount']

/-! The evaluation loop, characterized as a last-match scan. -/

theorem foldl_eq_lastMatch {Pfx Addr : Type} (contains : Pfx → Addr → Bool) (ip : Addr) :
    ∀ (rs : List (FilterEntry Pfx)) (d : Bool),
      rs.foldl (fun reject ft => if contains ft.f ip then ft.reject else reject) d
        = lastMatchSpec contains d rs ip := by
  intro rs
  induction rs with
  | nil => intro d; rfl
  | cons a rs ih =>
    intro d
    rw [List.foldl_cons, ih]
    by_cases hc : contains a.f ip = true
    · have hfc : (List.filter (fun e => contains e.f ip) (a :: rs))
          = a :: List.filter (fun e => contains e.f ip) rs := by
        simp [List.filter_cons, hc]
      rw [if_pos hc]
      cases hl : (rs.filter fun e => contains e.f ip) with
      | nil => simp [lastMatchSpec, hfc, hl]
      | cons b l =>
        unfold lastMatchSpec
        rw [hfc, hl, List.getLast?_cons_cons]
        cases hgl : (b :: l).getLast? with
        | none => rw [List.getLast?_eq_none_iff] at hgl; cases hgl
        | some x => rfl
    · have hc' : contains a.f ip = false := by simpa using hc
      simp [lastMatchSpec, List.filter_cons, hc']

/-! The listing loops, characterized as filter-then-map. -/

theorem foldl_append_filter {Pfx : Type} (p : FilterEntry Pfx → Bool) :
    ∀ (rs : List (FilterEntry Pfx)) (acc : List Pfx),
      rs.foldl (fun out ff => if p ff then out ++ [ff.f] else out) acc
        = acc ++ (rs.filter p).map (fun e => e.f) := by
  intro rs
  induction rs with
  | nil => intro acc; simp
  | cons a rs ih =>
    intro acc
    rw [List.foldl_cons]
    by_cases hp : p a = true
    · rw [List.filter_cons_of_pos hp, if_pos hp, ih]
      simp
    · have hp' : p a = false := by simpa using hp
      rw [List.filter_cons_of_neg (by simp [hp']), if_neg (by simp [hp']), ih]

/-! Auxiliary facts used for the update-in-place and no-growth properties. -/

theorem setRejectAt_length {Pfx : Type} :
    ∀ (rs : List (FilterEntry Pfx)) (i : Nat) (b : Bool),
      (setRejectAt rs i b).length = rs.length := by
  intro rs
  induction rs with
  | nil => intro i b; rfl
  | cons a rs ih =>
    intro i b
    cases i with
    | zero => rfl
    | succ i => simp [setRejectAt, ih i b]

theorem findIdxO_setRejectAt {Pfx : Type} (key : Pfx → String) (s : String) :
    ∀ (rs : List (FilterEntry Pfx)) (i : Nat) (b : Bool),
      findIdxO key s (setRejectAt rs i b) = findIdxO key s rs := by
  intro rs
  induction rs with
  | nil => intro i b; rfl
  | cons a rs ih =>
    intro i b
    cases i with
    | zero => rfl
    | succ i => simp [setRejectAt, findIdxO, ih i b]

theorem findIdxO_append_singleton {Pfx : Type} (key : Pfx → String) (s : String)
    (e : FilterEntry Pfx) :
    ∀ rs : List (FilterEntry Pfx),
      findIdxO key s (rs ++ [e]) =
        match findIdxO key s rs with
        | some i => some i
        | none => if key e.f == s then some rs.length else none := by
  intro rs
  induction rs with
  | nil =>
    by_cases h : (key e.f == s) = true
    · simp [findIdxO, h]
    · have h' : (key e.f == s) = false := by simpa using h
      simp [findIdxO, h']
  | cons a rs ih =>
    by_cases h : (key a.f == s) = true
    · simp [findIdxO, h]
    · have h' : (key a.f == s) = false := by simpa using h
      simp only [List.cons_append, findIdxO, h', Bool.false_eq_true, if_false]
      cases hf : findIdxO key s rs with
      | none =>
        by_cases he : (key e.f == s) = true
        · simp [ih, hf, he]
        · have he' : (key e.f == s) = false := by simpa using he
          simp [ih, hf, he']
      | some i => simp [ih, hf]

theorem key_nodup_unique_pos {Pfx : Type} (key : Pfx → String)
    (rs : List (FilterEntry Pfx)) (hnd : (rs.map fun e => key e.f).Nodup) :
    ∀ i j ei ej, rs.get? i = some ei → rs.get? j = some ej →
      key ei.f = key ej.f → i = j := by
  intro i j ei ej hi hj hk
  have hmi : (rs.map fun e => key e.f).get? i = some (key ei.f) := by
    rw [List.get?_map, hi]; rfl
  have hmj : (rs.map fun e => key e.f).get? j = some (key ej.f) := by
    rw [List.get?_map, hj]; rfl
  have hlen : i < (rs.map fun e => key e.f).length := by
    by_contra hcon
    rw [List.get?_eq_none.mpr (by omega)] at hmi
    cases hmi
  exact List.get?_inj hlen hnd (by rw [hmi, hmj, hk])

/-! Claim theorems. -/

/-- C1: for every table state and every address whose host component parses
to a valid IP, `AddrBlocked` starts from the default action, scans the rule
list in insertion order without stopping early, and lets each rule whose
prefix contains the address overwrite the decision, so the last matching
rule in insertion order determines the outcome (overriding any earlier,
even more specific, match) and the result is true iff the final decision is
DENY: it coincides with the spec-worded last-match evaluation
`lastMatchSpec`. -/
theorem addrBlocked_lastMatchWins {Pfx Addr MA : Type} (parse : MA → Option Addr)
    (contains : Pfx → Addr → Bool) (fs : Filters Pfx) (a : MA) (ip : Addr)
    (h : parse a = some ip) :
    AddrBlocked parse contains fs a
      = lastMatchSpec contains fs.RejectByDefault fs.filters ip := by
  unfold AddrBlocked
  rw [h]
  exact foldl_eq_lastMatch contains ip fs.filters fs.RejectByDefault

theorem addrBlocked_lastMatchWins_witness :
    ((id : Option Nat → Option Nat) (some 17) = some 17) ∧
    AddrBlocked (id : Option Nat → Option Nat) containsN
      { RejectByDefault := false,
        filters := [{ f := (0, 0), reject := true }, { f := (16, 4), reject := false }] }
      (some 17)
      = lastMatchSpec containsN false
        [{ f := (0, 0), reject := true }, { f := (16, 4), reject := false }] 17 :=
  ⟨rfl,
   addrBlocked_lastMatchWins (id : Option Nat → Option Nat) containsN
     { RejectByDefault := false,
       filters := [{ f := (0, 0), reject := true }, { f := (16, 4), reject := false }] }
     (some 17) 17 rfl⟩

/-- C2: when the queried address cannot be decomposed to a parseable IP
(the external pipeline yields nothing), `AddrBlocked` applies the
configured default — it returns `RejectByDefault`, hence true exactly when
the default is DENY — and the rule list is never consulted: any rule list
gives the same answer. -/
theorem addrBlocked_parseFailure_default {Pfx Addr MA : Type} (parse : MA → Option Addr)
    (contains : Pfx → Addr → Bool) (fs : Filters Pfx) (a : MA)
    (h : parse a = none) :
    AddrBlocked parse contains fs a = fs.RejectByDefault ∧
    ∀ rs : List (FilterEntry Pfx),
      AddrBlocked parse contains { RejectByDefault := fs.RejectByDefault, filters := rs } a
        = fs.RejectByDefault := by
  constructor
  · unfold AddrBlocked
    rw [h]
  · intro rs
    unfold AddrBlocked
    rw [h]

theorem addrBlocked_parseFailure_default_witness :
    ((id : Option Nat → Option Nat) none = none) ∧
    AddrBlocked (id : Option Nat → Option Nat) containsN
      { RejectByDefault := true, filters := [{ f := (16, 4), reject := false }] }
      none = true :=
  ⟨rfl,
   (addrBlocked_parseFailure_default (id : Option Nat → Option Nat) containsN
     { RejectByDefault := true, filters := [{ f := (16, 4), reject := false }] }
     none rfl).1⟩

/-- C5: `NewFilters` builds the table with an empty rule list and default
ALLOW (`RejectByDefault = false`), and it cannot fail; on the fresh table
`AddrBlocked` returns false for every address (in particular for every
parseable one). -/
theorem newFilters_blocksNothing {Pfx Addr MA : Type} (parse : MA → Option Addr)
    (contains : Pfx → Addr → Bool) :
    (NewFilters Pfx).RejectByDefault = false ∧
    (NewFilters Pfx).filters = [] ∧
    ∀ a : MA, AddrBlocked parse contains (NewFilters Pfx) a = false := by
  refine ⟨rfl, rfl, ?_⟩
  intro a
  unfold AddrBlocked NewFilters
  cases parse a <;> rfl

/-- C6: removing a prefix no rule carries is a no-op, not an error: the
table value (rule list and default flag) is unchanged, hence every
evaluation gives the same result before and after the call. -/
theorem remove_absent_noop {Pfx : Type} (key : Pfx → String) (fs : Filters Pfx) (ff : Pfx)
    (h : ∀ e ∈ fs.filters, (key e.f == key ff) = false) :
    Remove key fs ff = fs ∧
    ∀ {Addr MA : Type} (parse : MA → Option Addr) (contains : Pfx → Addr → Bool) (a : MA),
      AddrBlocked parse contains (Remove key fs ff) a = AddrBlocked parse contains fs a := by
  have hnone : findIdxO key (key ff) fs.filters = none :=
    (findIdxO_eq_none_iff key (key ff) fs.filters).mpr h
  have heq : Remove key fs ff = fs := by
    rw [Remove_eq_match, hnone]
  exact ⟨heq, fun parse contains a => by rw [heq]⟩

theorem remove_absent_noop_witness :
    (∀ e ∈ ([{ f := (32, 4), reject := true }] : List (FilterEntry (Nat × Nat))),
      (keyN e.f == keyN (16, 4)) = false) ∧
    Remove keyN
      { RejectByDefault := false, filters := [{ f := (32, 4), reject := true }] } (16, 4)
      = { RejectByDefault := false, filters := [{ f := (32, 4), reject := true }] } :=
  ⟨by decide,
   (remove_absent_noop keyN
     { RejectByDefault := false, filters := [{ f := (32, 4), reject := true }] }
     (16, 4) (by decide)).1⟩

/-- C8: evaluation is deterministic and pure — a function of the default
flag, the ordered rule list, and the queried address only: two tables that
agree on both fields, queried at equal addresses, give equal results. -/
theorem addrBlocked_deterministic {Pfx Addr MA : Type} (parse : MA → Option Addr)
    (contains : Pfx → Addr → Bool) (fs1 fs2 : Filters Pfx) (a1 a2 : MA)
    (hd : fs1.RejectByDefault = fs2.RejectByDefault)
    (hr : fs1.filters = fs2.filters) (ha : a1 = a2) :
    AddrBlocked parse contains fs1 a1 = AddrBlocked parse contains fs2 a2 := by
  cases fs1 with
  | mk d1 r1 =>
    cases fs2 with
    | mk d2 r2 =>
      obtain rfl : d1 = d2 := hd
      obtain rfl : r1 = r2 := hr
      obtain rfl : a1 = a2 := ha
      rfl

theorem addrBlocked_deterministic_witness :
    (true = true ∧ ([{ f := (16, 4), reject := true }] : List (FilterEntry (Nat × Nat)))
        = [{ f := (16, 4), reject := true }] ∧
      (some 17 : Option Nat) = some 17) ∧
    AddrBlocked (id : Option Nat → Option Nat) containsN
        { RejectByDefault := true, filters := [{ f := (16, 4), reject := true }] }
        (some 17)
      = AddrBlocked (id : Option Nat → Option Nat) containsN
        { RejectByDefault := true, filters := [{ f := (16, 4), reject := true }] }
        (some 17) :=
  ⟨⟨rfl, rfl, rfl⟩,
   addrBlocked_deterministic (id : Option Nat → Option Nat) containsN
     { RejectByDefault := true, filters := [{ f := (16, 4), reject := true }] }
     { RejectByDefault := true, filters := [{ f := (16, 4), reject := true }] }
     (some 17) (some 17) rfl rfl rfl⟩

/-- C7: the listing operations return exactly the prefixes with the
corresponding stored action, in insertion order: the `Filters()` method
(and its alias `RejectFilters`) yields the DENY prefixes and `AllowFilters`
the ALLOW prefixes, each equal to the filter-then-map of the rule list;
being pure functions of the table value they neither mutate the table nor
hand out a live view of its internal sequence. -/
theorem listDeny_listAllow_snapshot {Pfx : Type} (fs : Filters Pfx) :
    FiltersM fs = ((fs.filters.filter fun e => e.reject).map fun e => e.f) ∧
    RejectFilters fs = ((fs.filters.filter fun e => e.reject).map fun e => e.f) ∧
    AllowFilters fs = ((fs.filters.filter fun e => !e.reject).map fun e => e.f) := by
  have h1 : FiltersM fs = ((fs.filters.filter fun e => e.reject).map fun e => e.f) := by
    have h := foldl_append_filter (fun e => e.reject) fs.filters []
    simpa [FiltersM] using h
  have h2 : AllowFilters fs = ((fs.filters.filter fun e => !e.reject).map fun e => e.f) := by
    have h := foldl_append_filter (fun e => !e.reject) fs.filters []
    simpa [AllowFilters] using h
  exact ⟨h1, h1, h2⟩

/-- C3 counterexample: on a table that already holds two rules with the
same canonical prefix string, `Remove` deletes only the earliest one — a
rule with that prefix remains, and an address inside the prefix is then
decided by the surviving rule instead of falling back to the default
(default ALLOW here, yet the address evaluates blocked). -/
theorem remove_duplicate_counterexample :
    (Remove keyN
      { RejectByDefault := false,
        filters := [{ f := (16, 4), reject := false }, { f := (16, 4), reject := true }] }
      (16, 4)).filters
      = [{ f := (16, 4), reject := true }] ∧
    AddrBlocked (id : Option Nat → Option Nat) containsN
      (Remove keyN
        { RejectByDefault := false,
          filters := [{ f := (16, 4), reject := false }, { f := (16, 4), reject := true }] }
        (16, 4)) (some 17) = true := by
  constructor
  · rfl
  · rfl

/-- C3 (amended): on a table holding at most one rule whose prefix equals
`p`, `Remove p` deletes every rule whose prefix equals `p`, regardless of
its action being DENY or ALLOW; afterwards no rule with prefix `p` remains,
the default flag is untouched, and an address contained in no other rule's
prefix falls back to the default action.  (On legacy tables with two or
more rules of the same prefix, `Remove` deletes only the earliest, as the
counterexample shows.) -/
theorem remove_removesAll_of_unique {Pfx : Type} (key : Pfx → String)
    (fs : Filters Pfx) (p : Pfx)
    (huniq : fs.filters.countP (fun e => key e.f == key p) ≤ 1) :
    (Remove key fs p).filters = fs.filters.filter (fun e => !(key e.f == key p)) ∧
    (∀ e ∈ (Remove key fs p).filters, (key e.f == key p) = false) ∧
    (Remove key fs p).RejectByDefault = fs.RejectByDefault ∧
    (∀ {Addr MA : Type} (parse : MA → Option Addr) (contains : Pfx → Addr → Bool)
        (a : MA) (ip : Addr),
      parse a = some ip →
      (∀ e ∈ fs.filters, (key e.f == key p) = true ∨ contains e.f ip = false) →
      AddrBlocked parse contains (Remove key fs p) a = fs.RejectByDefault) := by
  have hfil : (Remove key fs p).filters
      = fs.filters.filter (fun e => !(key e.f == key p)) := by
    rw [Remove_eq_match]
    cases hf : findIdxO key (key p) fs.filters with
    | none =>
      have hall := (findIdxO_eq_none_iff key (key p) fs.filters).mp hf
      show fs.filters = fs.filters.filter (fun e => !(key e.f == key p))
      rw [eq_comm, List.filter_eq_self]
      intro e he
      simp [hall e he]
    | some i =>
      obtain ⟨e, hget, hkey, hfirst⟩ := findIdxO_some_spec key (key p) fs.filters i hf
      show fs.filters.eraseIdx i = fs.filters.filter (fun e => !(key e.f == key p))
      exact eraseIdx_eq_filter_of_unique (fun e => key e.f == key p)
        fs.filters i e hget hkey hfirst huniq
  have hmem : ∀ e ∈ (Remove key fs p).filters, (key e.f == key p) = false := by
    intro e he
    rw [hfil] at he
    have h := List.of_mem_filter he
    simpa using h
  have hdef : (Remove key fs p).RejectByDefault = fs.RejectByDefault := by
    rw [Remove_eq_match]
    cases hf : findIdxO key (key p) fs.filters with
    | none => rfl
    | some i => rfl
  refine ⟨hfil, hmem, hdef, ?_⟩
  intro Addr MA parse contains a ip hparse honly
  have hnil : (List.filter (fun e => contains e.f ip) (Remove key fs p).filters) = [] := by
    rw [List.filter_eq_nil_iff]
    intro e he
    have hmemfs : e ∈ fs.filters := by
      rw [hfil] at he
      exact List.mem_of_mem_filter he
    rcases honly e hmemfs with hkey | hcon
    · have hne := hmem e he
      rw [hne] at hkey
      cases hkey
    · simp [hcon]
  unfold AddrBlocked
  rw [hparse]
  show (Remove key fs p).filters.foldl
      (fun reject ft => if contains ft.f ip then ft.reject else reject)
      (Remove key fs p).RejectByDefault = fs.RejectByDefault
  rw [foldl_eq_lastMatch contains ip]
  unfold lastMatchSpec
  rw [hnil]
  exact hdef

theorem remove_removesAll_of_unique_witness :
    (([{ f := (16, 4), reject := false }] : List (FilterEntry (Nat × Nat))).countP
        (fun e => keyN e.f == keyN (16, 4)) ≤ 1) ∧
    AddrBlocked (id : Option Nat → Option Nat) containsN
      (Remove keyN
        { RejectByDefault := true, filters := [{ f := (16, 4), reject := false }] }
        (16, 4)) (some 17) = true :=
  ⟨by decide,
   (remove_removesAll_of_unique keyN
     { RejectByDefault := true, filters := [{ f := (16, 4), reject := false }] }
     (16, 4) (by decide)).2.2.2
     (id : Option Nat → Option Nat) containsN (some 17) 17 rfl (by decide)⟩

/-! Helpers for the no-growth part of the update-in-place claim. -/

theorem findIdxO_after_addDial {Pfx : Type} (key : Pfx → String) (fs : Filters Pfx) (f : Pfx) :
    ∃ i, findIdxO key (key f) (AddDialFilter key fs f).filters = some i := by
  rw [AddDialFilter_eq_match]
  cases hf : findIdxO key (key f) fs.filters with
  | none =>
    refine ⟨fs.filters.length, ?_⟩
    show findIdxO key (key f) (fs.filters ++ [{ f := f, reject := true }]) = _
    rw [findIdxO_append_singleton, hf]
    simp
  | some i =>
    refine ⟨i, ?_⟩
    show findIdxO key (key f) (setRejectAt fs.filters i true) = some i
    rw [findIdxO_setRejectAt]
    exact hf

theorem findIdxO_after_addAllow {Pfx : Type} (key : Pfx → String) (fs : Filters Pfx) (f : Pfx) :
    ∃ i, findIdxO key (key f) (AddAllowFilter key fs f).filters = some i := by
  rw [AddAllowFilter_eq_match]
  cases hf : findIdxO key (key f) fs.filters with
  | none =>
    refine ⟨fs.filters.length, ?_⟩
    show findIdxO key (key f) (fs.filters ++ [{ f := f, reject := false }]) = _
    rw [findIdxO_append_singleton, hf]
    simp
  | some i =>
    refine ⟨i, ?_⟩
    show findIdxO key (key f) (setRejectAt fs.filters i false) = some i
    rw [findIdxO_setRejectAt]
    exact hf

theorem addDial_length_of_found {Pfx : Type} (key : Pfx → String) (fs : Filters Pfx)
    (f : Pfx) (i : Nat) (h : findIdxO key (key f) fs.filters = some i) :
    (AddDialFilter key fs f).filters.length = fs.filters.length := by
  rw [AddDialFilter_eq_match, h]
  exact setRejectAt_length fs.filters i true

theorem addAllow_length_of_found {Pfx : Type} (key : Pfx → String) (fs : Filters Pfx)
    (f : Pfx) (i : Nat) (h : findIdxO key (key f) fs.filters = some i) :
    (AddAllowFilter key fs f).filters.length = fs.filters.length := by
  rw [AddAllowFilter_eq_match, h]
  exact setRejectAt_length fs.filters i false

/-- C4: on a table with at most one rule per canonical prefix string,
`AddDialFilter` and `AddAllowFilter` have update-in-place semantics: if a
rule with an identical prefix exists at position `i`, the rule list becomes
`set i` of the old list — same length, same position, only the action
overwritten; if no such rule exists, a new rule is appended at the end; and
a repeated Add for the same prefix never grows the table (the operations
are total, so insertion never fails for a well-formed prefix). -/
theorem add_updateInPlace {Pfx : Type} (key : Pfx → String) (fs : Filters Pfx) (f : Pfx)
    (hnd : (fs.filters.map fun e => key e.f).Nodup) :
    (∀ i e, fs.filters.get? i = some e → key e.f = key f →
      (AddDialFilter key fs f).filters = fs.filters.set i { e with reject := true } ∧
      (AddAllowFilter key fs f).filters = fs.filters.set i { e with reject := false }) ∧
    ((∀ e ∈ fs.filters, key e.f ≠ key f) →
      (AddDialFilter key fs f).filters = fs.filters ++ [{ f := f, reject := true }] ∧
      (AddAllowFilter key fs f).filters = fs.filters ++ [{ f := f, reject := false }]) ∧
    (AddDialFilter key (AddDialFilter key fs f) f).filters.length
      = (AddDialFilter key fs f).filters.length ∧
    (AddAllowFilter key (AddDialFilter key fs f) f).filters.length
      = (AddDialFilter key fs f).filters.length ∧
    (AddDialFilter key (AddAllowFilter key fs f) f).filters.length
      = (AddAllowFilter key fs f).filters.length ∧
    (AddAllowFilter key (AddAllowFilter key fs f) f).filters.length
      = (AddAllowFilter key fs f).filters.length := by
  refine ⟨?_, ?_, ?_, ?_, ?_, ?_⟩
  · intro i e hi hk
    have hfind : findIdxO key (key f) fs.filters = some i := by
      apply findIdxO_of_first key (key f) fs.filters i e hi (by simp [hk])
      intro k hklt e' hget'
      by_contra hcon
      have hbeq : (key e'.f == key f) = true := by
        cases hb : (key e'.f == key f) with
        | true => rfl
        | false => exact absurd hb hcon
      have heq : key e'.f = key e.f := by
        have h1 : key e'.f = key f := by simpa using hbeq
        rw [h1, hk]
      have := key_nodup_unique_pos key fs.filters hnd k i e' e hget' hi heq
      omega
    constructor
    · rw [AddDialFilter_eq_match, hfind]
      exact setRejectAt_eq_set fs.filters i e true hi
    · rw [AddAllowFilter_eq_match, hfind]
      exact setRejectAt_eq_set fs.filters i e false hi
  · intro habsent
    have hfind : findIdxO key (key f) fs.filters = none := by
      rw [findIdxO_eq_none_iff]
      intro e he
      exact beq_eq_false_iff_ne.mpr (habsent e he)
    constructor
    · rw [AddDialFilter_eq_match, hfind]
    · rw [AddAllowFilter_eq_match, hfind]
  · obtain ⟨i, hi⟩ := findIdxO_after_addDial key fs f
    exact addDial_length_of_found key (AddDialFilter key fs f) f i hi
  · obtain ⟨i, hi⟩ := findIdxO_after_addDial key fs f
    exact addAllow_length_of_found key (AddDialFilter key fs f) f i hi
  · obtain ⟨i, hi⟩ := findIdxO_after_addAllow key fs f
    exact addDial_length_of_found key (AddAllowFilter key fs f) f i hi
  · obtain ⟨i, hi⟩ := findIdxO_after_addAllow key fs f
    exact addAllow_length_of_found key (AddAllowFilter key fs f) f i hi

theorem add_updateInPlace_witness :
    ((([{ f := (16, 4), reject := true }, { f := (32, 4), reject := false }]
        : List (FilterEntry (Nat × Nat))).map fun e => keyN e.f).Nodup) ∧
    (AddDialFilter keyN
      { RejectByDefault := false,
        filters := [{ f := (16, 4), reject := true }, { f := (32, 4), reject := false }] }
      (16, 4)).filters
      = ([{ f := (16, 4), reject := true }, { f := (32, 4), reject := false }]
          : List (FilterEntry (Nat × Nat))).set 0 { f := (16, 4), reject := true } :=
  ⟨by decide,
   ((add_updateInPlace keyN
      { RejectByDefault := false,
        filters := [{ f := (16, 4), reject := true }, { f := (32, 4), reject := false }] }
      (16, 4) (by decide)).1 0 { f := (16, 4), reject := true } rfl rfl).1⟩

/-- C10: on a legacy table already holding two or more rules with the same
canonical prefix string, `AddDialFilter` and `AddAllowFilter` overwrite the
action of only the earliest such rule (position `i`), every other position
— in particular every later duplicate `j` — keeping its old entry, so a
later duplicate with the old action can still determine the last-match
evaluation for addresses in the prefix. -/
theorem add_duplicate_updatesEarliestOnly {Pfx : Type} (key : Pfx → String)
    (fs : Filters Pfx) (p : Pfx) (i j : Nat) (ei ej : FilterEntry Pfx)
    (hi : fs.filters.get? i = some ei) (hki : key ei.f = key p)
    (hfirst : ∀ k, k < i → ∀ e', fs.filters.get? k = some e' → key e'.f ≠ key p)
    (hij : i < j) (hj : fs.filters.get? j = some ej) (hkj : key ej.f = key p) :
    (AddDialFilter key fs p).filters = fs.filters.set i { ei with reject := true } ∧
    (AddAllowFilter key fs p).filters = fs.filters.set i { ei with reject := false } ∧
    (AddDialFilter key fs p).filters.get? j = some ej ∧
    (AddAllowFilter key fs p).filters.get? j = some ej := by
  have hfind : findIdxO key (key p) fs.filters = some i := by
    apply findIdxO_of_first key (key p) fs.filters i ei hi (by simp [hki])
    intro k hk e' hget'
    exact beq_eq_false_iff_ne.mpr (hfirst k hk e' hget')
  have hd : (AddDialFilter key fs p).filters
      = fs.filters.set i { ei with reject := true } := by
    rw [AddDialFilter_eq_match, hfind]
    exact setRejectAt_eq_set fs.filters i ei true hi
  have hal : (AddAllowFilter key fs p).filters
      = fs.filters.set i { ei with reject := false } := by
    rw [AddAllowFilter_eq_match, hfind]
    exact setRejectAt_eq_set fs.filters i ei false hi
  refine ⟨hd, hal, ?_, ?_⟩
  · rw [hd, List.get?_set_ne _ _ (by omega)]
    exact hj
  · rw [hal, List.get?_set_ne _ _ (by omega)]
    exact hj

theorem add_duplicate_updatesEarliestOnly_witness :
    (([{ f := (16, 4), reject := true }, { f := (16, 4), reject := true }]
        : List (FilterEntry (Nat × Nat))).get? 0 = some { f := (16, 4), reject := true }) ∧
    keyN (16, 4) = keyN (16, 4) ∧
    (0 : Nat) < 1 ∧
    (([{ f := (16, 4), reject := true }, { f := (16, 4), reject := true }]
        : List (FilterEntry (Nat × Nat))).get? 1 = some { f := (16, 4), reject := true }) ∧
    (AddAllowFilter keyN
      { RejectByDefault := false,
        filters := [{ f := (16, 4), reject := true }, { f := (16, 4), reject := true }] }
      (16, 4)).filters.get? 1 = some { f := (16, 4), reject := true } :=
  ⟨rfl, rfl, by decide, rfl,
   (add_duplicate_updatesEarliestOnly keyN
     { RejectByDefault := false,
       filters := [{ f := (16, 4), reject := true }, { f := (16, 4), reject := true }] }
     (16, 4) 0 1 { f := (16, 4), reject := true } { f := (16, 4), reject := true }
     rfl rfl (fun k hk e' hget' => absurd hk (Nat.not_lt_zero k))
     (by decide) rfl rfl).2.2.2⟩
